import Mathlib

/-!
Verification of the reactive state core of `react-reactive-hooks`
(`src/useReactive.ts`): the write buffer, read-through-buffer proxy
resolution, array mutation emulation, and the immer-based commit engine.

JS values are modelled by `Val`; composite nodes (`vobj`, `varr`) carry a
`Nat` identity tag standing for their object reference, so that
"reference-identical" can be stated as equality of the tagged terms.  The
commit engine threads a counter and stamps every copied node with a fresh
tag, modelling immer's copy-on-write allocation.
-/

namespace ReactiveHooks

/-- A property key: a string key or a symbol (identity-only, numbered). -/
inductive Key where
  | str : String → Key
  | sym : Nat → Key
deriving DecidableEq

/-- A property path: an ordered sequence of keys. -/
abbrev Path := List Key

/-- A JS value tree.  `vobj`/`varr` carry an identity tag (first field)
modelling the object reference.  Runtime-created values (buffered arrays,
splice results) are tagged `0`; the commit engine allocates fresh tags
from a threaded counter. -/
inductive Val where
  | vnull : Val
  | vundefined : Val
  | vint : Int → Val
  | vstr : String → Val
  | vbool : Bool → Val
  | vobj : Nat → List (Key × Val) → Val
  | varr : Nat → List Val → Val

/-- `null` and `undefined`: the values skipped by the `??` operator in
`getCachedValue(...) ?? target[key]` (useReactive.ts line 179). -/
def isNullish : Val → Bool
  | .vnull => true
  | .vundefined => true
  | _ => false

/-- Composite (proxyable) values. -/
def isContainer : Val → Bool
  | .vobj _ _ => true
  | .varr _ _ => true
  | _ => false

/-- The per-instance mutable refs of `useReactive`:
`state`, `tempValuesWithStringPath`, `tempValuesWithSymbolPath`, `isDirty`.
The two temp `Map`s are modelled as insertion-ordered association lists,
matching JS `Map` iteration order. -/
structure HookState where
  state : Val
  tempValuesWithStringPath : List (String × Val)
  tempValuesWithSymbolPath : List (Path × Val)
  isDirty : Bool

/-- `path.some((k) => typeof k === 'symbol')`. -/
def hasSymbol (p : Path) : Bool :=
  p.any fun k => match k with | .sym _ => true | .str _ => false

/-- The string components of a path (only used under `hasSymbol p = false`,
where every key is a string). -/
def strKeys (p : Path) : List String :=
  p.map fun k => match k with | .str s => s | .sym _ => ""

/-- `path.join('.')`. -/
def joinPath : List String → String
  | [] => ""
  | [k] => k
  | k :: rest => k ++ "." ++ joinPath rest

/-- Split a character list on `'.'` (an empty input yields one empty
field, as JS `split` does). -/
def splitChars : List Char → List (List Char)
  | [] => [[]]
  | c :: rest =>
      let r := splitChars rest
      if c = '.' then [] :: r
      else
        match r with
        | [] => [[c]]
        | h :: t => (c :: h) :: t

/-- `key.split('.')`. -/
def splitPath (s : String) : List String :=
  (splitChars s.data).map fun cs => ⟨cs⟩

/-- JS `Map.prototype.set` on an association list: overwrite in place if
the key is present (keeping its position), else append at the end. -/
def mapSet : List (String × Val) → String → Val → List (String × Val)
  | [], k, v => [(k, v)]
  | e :: rest, k, v => if e.1 = k then (k, v) :: rest else e :: mapSet rest k v

/-- JS `Map.prototype.get` on an association list. -/
def mapGet : List (String × Val) → String → Option Val
  | [], _ => none
  | e :: rest, k => if e.1 = k then some e.2 else mapGet rest k

/-- `cachedPath.every((k, i) => k === path[i])`: iterates over the first
path's indices; an out-of-range access on the second yields `undefined`,
which never equals a key. -/
def everyMatches : Path → Path → Bool
  | [], _ => true
  | _ :: _, [] => false
  | k :: ks, k2 :: ps => k == k2 && everyMatches ks ps

/-- The linear scan of `getCachedValue` over `tempValuesWithSymbolPath`:
skip entries of different length, return the first whose keys all match. -/
def symFind : List (Path × Val) → Path → Option Val
  | [], _ => none
  | e :: rest, p =>
      if e.1.length ≠ p.length then symFind rest p
      else if everyMatches e.1 p then some e.2
      else symFind rest p

/-- The linear scan of `scheduleUpdate` over `tempValuesWithSymbolPath`:
skip entries shorter than the new path; on the first entry whose keys all
match the new path, overwrite its value in place; if none matches, append
a fresh entry. -/
def symSet : List (Path × Val) → Path → Val → List (Path × Val)
  | [], p, v => [(p, v)]
  | e :: rest, p, v =>
      if e.1.length < p.length then e :: symSet rest p v
      else if everyMatches e.1 p then (e.1, v) :: rest
      else e :: symSet rest p v

/-- `getCachedValue(path)` (useReactive.ts lines 90-106). -/
def getCachedValue (s : HookState) (path : Path) : Option Val :=
  if hasSymbol path then symFind s.tempValuesWithSymbolPath path
  else mapGet s.tempValuesWithStringPath (joinPath (strKeys path))

/-- `scheduleUpdate(path, value)` (useReactive.ts lines 113-140): set the
dirty flag, then record the write in the symbol-path map (linear scan) or
the string-path map (under the '.'-joined composite key). -/
def scheduleUpdate (s : HookState) (path : Path) (value : Val) : HookState :=
  let s1 := { s with isDirty := true }
  if hasSymbol path then
    { s1 with tempValuesWithSymbolPath := symSet s1.tempValuesWithSymbolPath path value }
  else
    { s1 with tempValuesWithStringPath :=
        mapSet s1.tempValuesWithStringPath (joinPath (strKeys path)) value }

/-- A string key that is a canonical array index (JS: `arr["2"]` is an
index access, `arr["02"]` is a plain property). -/
def idx? : Key → Option Nat
  | .str s =>
      match s.toNat? with
      | some n => if toString n = s then some n else none
      | none => none
  | .sym _ => none

/-- `(fields).find` for a JS object's own property. -/
def fieldsFind : List (Key × Val) → Key → Option Val
  | [], _ => none
  | e :: rest, k => if e.1 = k then some e.2 else fieldsFind rest k

/-- `target[key]` on a raw value: own property of an object, index (or
`length`) of an array; missing keys and scalar targets read as
`undefined`. -/
def lookupRaw (v : Val) (k : Key) : Val :=
  match v with
  | .vobj _ fs => (fieldsFind fs k).getD .vundefined
  | .varr _ es =>
      if k = Key.str "length" then .vint es.length
      else
        match idx? k with
        | some i => es[i]?.getD .vundefined
        | none => .vundefined
  | _ => .vundefined

/-- One proxy `get` trap (useReactive.ts lines 176-191):
`getCachedValue([...path, key]) ?? target[key]`. A buffered value that is
nullish is skipped by `??` and the raw value is returned instead. -/
def resolveProp (s : HookState) (pre : Path) (cur : Val) (k : Key) : Val :=
  match getCachedValue s (pre ++ [k]) with
  | some v => if isNullish v then lookupRaw cur k else v
  | none => lookupRaw cur k

/-- Walk a path through successive proxy `get` traps, starting from the
value wrapped at `pre`. -/
def readViewAux (s : HookState) : Path → Val → Path → Val
  | _, cur, [] => cur
  | pre, cur, k :: rest => readViewAux s (pre ++ [k]) (resolveProp s pre cur k) rest

/-- The value observed when reading path `p` through the root proxy
(`proxyObject(state.current)`): the scalar returned, or the raw value the
proxy at `p` wraps. -/
def readView (s : HookState) (p : Path) : Val := readViewAux s [] s.state p

/-- A proxy `set` trap firing for the last key of `p` on the proxy at
`p.dropLast`: `scheduleUpdate([...path, key], value); return true` — the
trap only records the write and reports success. -/
def writeView (s : HookState) (p : Path) (v : Val) : HookState := scheduleUpdate s p v

/-- The nonempty proper front segments of `p` (lengths `1..p.length - 1`):
the locations a member chain `state.k1.k2...` traverses before reaching
`p`. -/
def stems (p : Path) : List Path :=
  ((List.range p.length).drop 1).map fun i => p.take i

/-- A member chain to `p` stays on proxies: every intermediate resolved
value is a container (otherwise JS would return a raw scalar and the next
access would not be intercepted, or would throw). -/
def viewTraversable (s : HookState) (p : Path) : Bool :=
  (stems p).all fun q => isContainer (readView s q)

/-- The failure of the commit engine when a buffered path cannot be
descended into (a scalar/missing intermediate node): in the source this
surfaces as a `TypeError` thrown from inside `produce`'s recipe. -/
inductive CommitError where
  | pathTraversal

/-- JS object property assignment on an association list of fields:
overwrite in place, else append. -/
def fieldsSet : List (Key × Val) → Key → Val → List (Key × Val)
  | [], k, v => [(k, v)]
  | e :: rest, k, v => if e.1 = k then (k, v) :: rest else e :: fieldsSet rest k v

/-- JS array index assignment: in-range update, or extension padded with
holes (read back as `undefined`). -/
def listSet (es : List Val) (i : Nat) (v : Val) : List Val :=
  if i < es.length then es.set i v
  else es ++ List.replicate (i - es.length) Val.vundefined ++ [v]

/-- The leaf assignment `current[path[pathLength - 1]] = value` of
`produceNewState`, on a copy-on-write draft: the container is shallow
copied with a fresh identity tag `c`.  Assigning through a scalar (or a
non-index key of an array) throws. -/
def setKey (st : Val) (k : Key) (v : Val) (c : Nat) : Except CommitError (Val × Nat) :=
  match st with
  | .vobj _ fs => .ok (.vobj c (fieldsSet fs k v), c + 1)
  | .varr _ es =>
      match idx? k with
      | some i => .ok (.varr c (listSet es i v), c + 1)
      | none => .error .pathTraversal
  | _ => .error .pathTraversal

/-- One `[path, value]` pass of `produceNewState`'s loop body
(useReactive.ts lines 17-25): descend along `path.slice(0, -1)` with
`current = current[key]`, then assign the last key.  Every container on
the way is copied with a fresh tag (immer's copy-on-write); a missing or
scalar intermediate aborts with `CommitError.pathTraversal`. -/
def setPath (st : Val) (p : Path) (v : Val) (c : Nat) : Except CommitError (Val × Nat) :=
  match p with
  | [] => .error .pathTraversal
  | [k] => setKey st k v c
  | k :: rest =>
      match st with
      | .vobj _ fs =>
          match fieldsFind fs k with
          | some child =>
              match setPath child rest v c with
              | .error e => .error e
              | .ok (child2, c2) => .ok (.vobj c2 (fieldsSet fs k child2), c2 + 1)
          | none => .error .pathTraversal
      | .varr _ es =>
          match idx? k with
          | some i =>
              match es[i]? with
              | some child =>
                  match setPath child rest v c with
                  | .error e => .error e
                  | .ok (child2, c2) => .ok (.varr c2 (es.set i child2), c2 + 1)
              | none => .error .pathTraversal
          | none => .error .pathTraversal
      | _ => .error .pathTraversal

/-- `produceNewState(state, pathAndValues)` (useReactive.ts lines 12-26):
apply every `[path, value]` pair in list order to a copy-on-write draft.
A failure aborts the whole production — no partial new state exists. -/
def produceNewState (st : Val) (pavs : List (Path × Val)) (c : Nat) :
    Except CommitError (Val × Nat) :=
  match pavs with
  | [] => .ok (st, c)
  | (p, v) :: rest =>
      match setPath st p v c with
      | .error e => .error e
      | .ok (st2, c2) => produceNewState st2 rest c2

/-- The drain of `batchUpdate` (useReactive.ts lines 147-151): the
symbol-path entries are taken first, then each string-path entry is split
on `'.'` and pushed after them. -/
def drainAll (s : HookState) : List (Path × Val) :=
  s.tempValuesWithSymbolPath ++
    s.tempValuesWithStringPath.map fun e => ((splitPath e.1).map Key.str, e.2)

/-- One invocation of `options.onStateChange(oldState, newState)`,
together with the buffer and dirty-flag contents observable at the moment
of the call. -/
structure CallbackCall where
  oldState : Val
  newState : Val
  strBufAtCall : List (String × Val)
  symBufAtCall : List (Path × Val)
  dirtyAtCall : Bool

/-- `batchUpdate()` (useReactive.ts lines 145-162): drain both maps
(clearing them), produce the new state, clear the dirty flag, invoke the
callback with `(state.current, newState)`, then replace `state.current`.
If `produceNewState` throws, the exception propagates after the maps were
already cleared: the error result carries the hook state as left behind
(buffers empty, `state` and `isDirty` untouched, no callback). -/
def batchUpdate (s : HookState) (c : Nat) :
    Except (HookState × Nat) (HookState × List CallbackCall × Nat) :=
  let pavs := drainAll s
  let s1 := { s with tempValuesWithStringPath := [], tempValuesWithSymbolPath := [] }
  match produceNewState s.state pavs c with
  | .error _ => .error (s1, c)
  | .ok (newState, c2) =>
      let s2 := { s1 with isDirty := false }
      let call : CallbackCall :=
        { oldState := s.state, newState := newState,
          strBufAtCall := s2.tempValuesWithStringPath,
          symBufAtCall := s2.tempValuesWithSymbolPath,
          dirtyAtCall := s2.isDirty }
      .ok ({ s2 with state := newState }, [call], c2)

/-- The render checkpoint (useReactive.ts lines 296-298):
`if (isDirty.current) batchUpdate();`. -/
def renderCheckpoint (s : HookState) (c : Nat) :
    Except (HookState × Nat) (HookState × List CallbackCall × Nat) :=
  if s.isDirty then batchUpdate s c else .ok (s, [], c)

/-- The recognized mutating array operations of `proxyArray`
(useReactive.ts lines 229-281).  `splice`'s `deleteCount` is `Option`al:
a JS caller may omit it, and the wrapper forwards `undefined` (which the
inner native `splice` coerces to `0`).  The `sortBy` comparator is
abstracted as a `le` test ("sorts no later than"). -/
inductive ArrOp where
  | push (items : List Val)
  | pop
  | shift
  | unshift (items : List Val)
  | splice (start : Int) (deleteCount : Option Int) (items : List Val)
  | sortBy (le : Val → Val → Bool)
  | reverse

/-- Native `Array.prototype.splice(start, deleteCount, ...items)` with an
explicit `deleteCount`: returns `(new array, removed elements)`. -/
def jsSplice (a : List Val) (start : Int) (deleteCount : Int) (items : List Val) :
    List Val × List Val :=
  let len : Int := a.length
  let actualStart : Nat := (if start < 0 then max (len + start) 0 else min start len).toNat
  let dc : Nat := (min (max deleteCount 0) (len - actualStart)).toNat
  ((a.take actualStart ++ items ++ a.drop (actualStart + dc)),
   (a.drop actualStart).take dc)

/-- Insert into a sorted list (stable with respect to the `le` test). -/
def insertLe (le : Val → Val → Bool) (v : Val) : List Val → List Val
  | [] => [v]
  | w :: rest => if le v w then v :: w :: rest else w :: insertLe le v rest

/-- The (implementation-chosen) order produced by a JS sort under a
consistent comparator; both the wrapper and the native model use it. -/
def sortWith (le : Val → Val → Bool) (a : List Val) : List Val :=
  a.foldr (insertLe le) []

/-- The wrapper closures of `proxyArray`: each computes `(the array
buffered by its single `scheduleUpdate(path, ...)` call, the value it
returns to the caller)` from the raw array the proxy wraps. -/
def wrapperRun (array : List Val) : ArrOp → List Val × Val
  | .push items => (array ++ items, .vint (array.length + items.length))
  | .pop => (array.dropLast, (array.getLast?).getD .vundefined)
  | .shift => (array.tail, (array.head?).getD .vundefined)
  | .unshift items => (items ++ array, .vint (items.length + array.length))
  | .splice start dc items =>
      let r := jsSplice array start (dc.getD 0) items
      (r.1, .varr 0 r.2)
  | .sortBy le => let r := sortWith le array; (r, .varr 0 r)
  | .reverse => (array.reverse, .varr 0 array.reverse)

/-- What the native mutating operation would do to `a` and return; the
reference point for "array op equivalence".  Differs from the wrapper only
on `splice` with an omitted `deleteCount`, where native removes through
the end of the array. -/
def nativeRun (a : List Val) : ArrOp → List Val × Val
  | .push items => (a ++ items, .vint (a ++ items).length)
  | .pop => (a.dropLast, (a.getLast?).getD .vundefined)
  | .shift => (a.tail, (a.head?).getD .vundefined)
  | .unshift items => (items ++ a, .vint (items ++ a).length)
  | .splice start dc items =>
      let len : Int := a.length
      let actualStart : Int := if start < 0 then max (len + start) 0 else min start len
      let d : Int := match dc with | some d => d | none => len - actualStart
      let r := jsSplice a start d items
      (r.1, .varr 0 r.2)
  | .sortBy le => let r := sortWith le a; (r, .varr 0 r)
  | .reverse => (a.reverse, .varr 0 a.reverse)

/-- `o` passes every argument native `splice` needs (only `splice` with an
omitted `deleteCount` does not). -/
def opExplicit : ArrOp → Bool
  | .splice _ none _ => false
  | _ => true

/-- Invoking a recognized mutating operation on the proxy obtained by a
fresh read of the array at `p`: the proxy wraps the buffer-resolved value
`readView s p`; the wrapper buffers one whole-array write at `p` and
returns the wrapper's value.  `none` when `p` does not resolve to an
array. -/
def runArrayOp (s : HookState) (p : Path) (o : ArrOp) : Option (HookState × Val) :=
  match readView s p with
  | .varr _ a => some (scheduleUpdate s p (.varr 0 (wrapperRun a o).1), (wrapperRun a o).2)
  | _ => none

/-- `initialState: T | (() => T)`: a direct value or a zero-argument
initializer (modelled by the value it returns). -/
inductive InitArg where
  | direct (v : Val)
  | thunk (v : Val)

/-- One render's evaluation of
`useRef(typeof initialState === 'function' ? initialState() : initialState)`
(useReactive.ts lines 61-63): the argument expression is evaluated on
every render — invoking the thunk each time — while the ref keeps the
value of the first render.  State: `(ref contents, thunk call count)`. -/
def renderInit : Option Val × Nat → InitArg → Option Val × Nat
  | (ref, calls), .thunk v => (some (ref.getD v), calls + 1)
  | (ref, calls), .direct v => (some (ref.getD v), calls)

/-- The ref contents and the total number of initializer invocations after
`n` renders of the hook. -/
def initAfterRenders (arg : InitArg) : Nat → Option Val × Nat
  | 0 => (none, 0)
  | n + 1 => renderInit (initAfterRenders arg n) arg

/-- A synchronous interaction with the intercepted view before the next
checkpoint: a property read, a property write, or a recognized array
mutation. -/
inductive Step where
  | sread (p : Path)
  | swrite (p : Path) (v : Val)
  | sarr (p : Path) (o : ArrOp)

/-- Effect of one interaction on the hook instance.  Reads are pure;
writes and array mutations go through `scheduleUpdate`. -/
def applyStep (s : HookState) : Step → HookState
  | .sread _ => s
  | .swrite p v => scheduleUpdate s p v
  | .sarr p o =>
      match runArrayOp s p o with
      | some (s2, _) => s2
      | none => s

/-- `p` is an initial segment of `q` (the written-path/subtree-path
overlap test for structural sharing). -/
def leads : Path → Path → Bool
  | [], _ => true
  | _ :: _, [] => false
  | a :: xs, b :: ys => a == b && leads xs ys

/-- Raw child of a value: own property of an object, canonical index of an
array; `none` for scalars, missing keys, and holes. -/
def rawChild (v : Val) (k : Key) : Option Val :=
  match v with
  | .vobj _ fs => fieldsFind fs k
  | .varr _ es => match idx? k with | some i => es[i]? | none => none
  | _ => none

/-- The raw subtree of a value at a path (no buffer involved). -/
def getPath : Val → Path → Option Val
  | v, [] => some v
  | v, k :: rest =>
      match rawChild v k with
      | some c => getPath c rest
      | none => none


/-! ## Helper lemmas -/

theorem everyMatches_self (p : Path) : everyMatches p p = true := by
  induction p with
  | nil => rfl
  | cons k ks ih => simp [everyMatches, ih]

theorem eq_of_everyMatches (q p : Path) (h : everyMatches q p = true)
    (hl : p.length ≤ q.length) : q = p := by
  induction q generalizing p with
  | nil =>
    cases p with
    | nil => rfl
    | cons k ks => simp at hl
  | cons k ks ih =>
    cases p with
    | nil => simp [everyMatches] at h
    | cons k2 ps =>
      simp only [everyMatches, Bool.and_eq_true, beq_iff_eq] at h
      simp only [List.length_cons, Nat.succ_le_succ_iff] at hl
      exact h.1 ▸ congrArg (k2 :: ·) (ih ps h.2 hl)

theorem symFind_symSet_self (l : List (Path × Val)) (p : Path) (v : Val) :
    symFind (symSet l p v) p = some v := by
  induction l with
  | nil => simp [symSet, symFind, everyMatches_self]
  | cons e rest ih =>
    by_cases hlt : e.1.length < p.length
    · have hne : e.1.length ≠ p.length := Nat.ne_of_lt hlt
      simp [symSet, symFind, hlt, hne, ih]
    · by_cases hev : everyMatches e.1 p
      · have heq : e.1 = p := eq_of_everyMatches _ _ hev (Nat.le_of_not_lt hlt)
        simp [symSet, symFind, hlt, hev, heq, everyMatches_self]
      · by_cases hne : e.1.length = p.length
        · simp [symSet, symFind, hlt, hev, hne, ih]
        · simp [symSet, symFind, hlt, hev, hne, ih]

theorem symSet_of_ne (l : List (Path × Val)) (p : Path) (v : Val)
    (h : ∀ e ∈ l, e.1 ≠ p) : symSet l p v = l ++ [(p, v)] := by
  induction l with
  | nil => rfl
  | cons e rest ih =>
    have he : e.1 ≠ p := h e (List.mem_cons_self e rest)
    have htail : ∀ e2 ∈ rest, e2.1 ≠ p := fun e2 h2 => h e2 (List.mem_cons_of_mem e h2)
    by_cases hlt : e.1.length < p.length
    · simp [symSet, hlt, ih htail]
    · have hev : ¬ everyMatches e.1 p := fun hev =>
        he (eq_of_everyMatches _ _ hev (Nat.le_of_not_lt hlt))
      simp [symSet, hlt, hev, ih htail]

theorem symSet_replace (l1 l2 : List (Path × Val)) (p : Path) (w v : Val)
    (h : ∀ e ∈ l1, e.1 ≠ p) :
    symSet (l1 ++ (p, w) :: l2) p v = l1 ++ (p, v) :: l2 := by
  induction l1 with
  | nil => simp [symSet, everyMatches_self]
  | cons e rest ih =>
    have he : e.1 ≠ p := h e (List.mem_cons_self e rest)
    have htail : ∀ e2 ∈ rest, e2.1 ≠ p := fun e2 h2 => h e2 (List.mem_cons_of_mem e h2)
    by_cases hlt : e.1.length < p.length
    · simp [symSet, hlt, ih htail]
    · have hev : ¬ everyMatches e.1 p := fun hev =>
        he (eq_of_everyMatches _ _ hev (Nat.le_of_not_lt hlt))
      simp [symSet, hlt, hev, ih htail]

theorem mapGet_mapSet_self (m : List (String × Val)) (k : String) (v : Val) :
    mapGet (mapSet m k v) k = some v := by
  induction m with
  | nil => simp [mapSet, mapGet]
  | cons e rest ih =>
    by_cases he : e.1 = k
    · simp [mapSet, mapGet, he]
    · simp [mapSet, mapGet, he, ih]

theorem mapSet_mapSet_self (m : List (String × Val)) (k : String) (v w : Val) :
    mapSet (mapSet m k v) k w = mapSet m k w := by
  induction m with
  | nil => simp [mapSet]
  | cons e rest ih =>
    by_cases he : e.1 = k
    · simp [mapSet, he]
    · simp [mapSet, he, ih]

theorem getCachedValue_scheduleUpdate_self (s : HookState) (p : Path) (v : Val) :
    getCachedValue (scheduleUpdate s p v) p = some v := by
  by_cases hs : hasSymbol p
  · simp [scheduleUpdate, getCachedValue, hs, symFind_symSet_self]
  · simp [scheduleUpdate, getCachedValue, hs, mapGet_mapSet_self]

theorem readViewAux_of_cached (s : HookState) (v : Val) (hv : isNullish v = false) :
    ∀ (rest pre : Path) (cur : Val), rest ≠ [] →
      getCachedValue s (pre ++ rest) = some v → readViewAux s pre cur rest = v := by
  intro rest
  induction rest with
  | nil => intro pre cur h; exact absurd rfl h
  | cons k rest2 ih =>
    intro pre cur _ hc
    cases hr : rest2 with
    | nil =>
      subst hr
      have hc2 : getCachedValue s (pre ++ [k]) = some v := hc
      simp [readViewAux, resolveProp, hc2, hv]
    | cons k2 r2 =>
      subst hr
      have : pre ++ k :: k2 :: r2 = (pre ++ [k]) ++ k2 :: r2 := by simp
      rw [this] at hc
      exact readViewAux.eq_def s (pre) _ _ ▸ ih (pre ++ [k]) _ (by simp) hc

theorem idx?_eq_some (k : Key) (i : Nat) (h : idx? k = some i) :
    k = Key.str (toString i) := by
  cases k with
  | sym n => simp [idx?] at h
  | str s =>
    simp only [idx?] at h
    cases hn : s.toNat? with
    | none => rw [hn] at h; simp at h
    | some n =>
      rw [hn] at h
      by_cases hc : toString n = s
      · simp [hc] at h
        exact congrArg Key.str (h ▸ hc).symm
      · simp [hc] at h

theorem idx?_inj (k k2 : Key) (i j : Nat) (hk : idx? k = some i)
    (hk2 : idx? k2 = some j) (hne : k ≠ k2) : i ≠ j := by
  intro hij
  exact hne ((idx?_eq_some k i hk).trans (hij ▸ (idx?_eq_some k2 j hk2)).symm)

theorem fieldsFind_fieldsSet_self (fs : List (Key × Val)) (k : Key) (v : Val) :
    fieldsFind (fieldsSet fs k v) k = some v := by
  induction fs with
  | nil => simp [fieldsSet, fieldsFind]
  | cons e rest ih =>
    by_cases he : e.1 = k
    · simp [fieldsSet, fieldsFind, he]
    · simp [fieldsSet, fieldsFind, he, ih]

theorem fieldsFind_fieldsSet_ne (fs : List (Key × Val)) (k k2 : Key) (v : Val)
    (hne : k2 ≠ k) : fieldsFind (fieldsSet fs k v) k2 = fieldsFind fs k2 := by
  induction fs with
  | nil => simp [fieldsSet, fieldsFind, Ne.symm hne]
  | cons e rest ih =>
    by_cases he : e.1 = k
    · simp [fieldsSet, fieldsFind, he, Ne.symm hne, ih]
    · simp [fieldsSet, fieldsFind, he, ih]

theorem getElem?_listSet_ne (es : List Val) (i j : Nat) (v child : Val)
    (hij : i ≠ j) (hj : es[j]? = some child) : (listSet es i v)[j]? = some child := by
  have hjlen : j < es.length := by
    by_contra hge
    rw [List.getElem?_eq_none (Nat.le_of_not_lt hge)] at hj
    exact Option.noConfusion hj
  by_cases hi : i < es.length
  · simp [listSet, hi, List.getElem?_set_ne hij, hj]
  · simp only [listSet, hi, if_false]
    rw [List.append_assoc, List.getElem?_append_left hjlen]
    exact hj

theorem getElem?_set_same (es : List Val) (i : Nat) (v : Val) (hi : i < es.length) :
    (es.set i v)[i]? = some v := by
  simp [List.getElem?_set_self hi]

/-- Core structural-sharing fact for a single committed write: a raw
subtree of the base sitting at a path that neither contains nor is
contained in the written path is carried to the produced value unchanged
(identity tag included). -/
theorem getPath_setPath_disjoint (p : Path) :
    ∀ (st v : Val) (c : Nat) (st2 : Val) (c2 : Nat) (q : Path) (sub : Val),
      setPath st p v c = .ok (st2, c2) →
      leads p q = false → leads q p = false →
      getPath st q = some sub → getPath st2 q = some sub := by
  induction p with
  | nil =>
    intro st v c st2 c2 q sub hset _ _ _
    simp [setPath] at hset
  | cons k rest ih =>
    intro st v c st2 c2 q sub hset hpq hqp hget
    cases rest with
    | nil =>
      cases q with
      | nil => simp [leads] at hqp
      | cons k2 q2 =>
        have hk : ¬ (k = k2) := by
          intro hkk
          simp [leads, hkk] at hpq
        cases st with
        | vobj id fs =>
          simp only [setPath, setKey, Except.ok.injEq, Prod.mk.injEq] at hset
          obtain ⟨hst2, _⟩ := hset
          subst hst2
          simpa [getPath, rawChild,
            fieldsFind_fieldsSet_ne fs k k2 v (fun h2 => hk h2.symm)] using hget
        | varr id es =>
          simp only [setPath, setKey] at hset
          cases hidx : idx? k with
          | none => rw [hidx] at hset; simp at hset
          | some i =>
            rw [hidx] at hset
            simp only [Except.ok.injEq, Prod.mk.injEq] at hset
            obtain ⟨hst2, _⟩ := hset
            subst hst2
            cases hidx2 : idx? k2 with
            | none => simp [getPath, rawChild, hidx2] at hget
            | some j =>
              simp only [getPath, rawChild, hidx2] at hget ⊢
              cases hj : es[j]? with
              | none => rw [hj] at hget; simp at hget
              | some child =>
                rw [hj] at hget
                rw [getElem?_listSet_ne es i j v child
                  (idx?_inj k k2 i j hidx hidx2 (fun h2 => hk h2)) hj]
                exact hget
        | vnull => simp [setPath, setKey] at hset
        | vundefined => simp [setPath, setKey] at hset
        | vint n => simp [setPath, setKey] at hset
        | vstr s2 => simp [setPath, setKey] at hset
        | vbool b => simp [setPath, setKey] at hset
    | cons k1 r1 =>
      cases q with
      | nil => simp [leads] at hqp
      | cons k2 q2 =>
        cases st with
        | vobj id fs =>
          cases hf : fieldsFind fs k with
          | none => simp [setPath, hf] at hset
          | some child =>
            cases hsp : setPath child (k1 :: r1) v c with
            | error e => simp [setPath, hf, hsp] at hset
            | ok pr =>
              obtain ⟨child2, c3⟩ := pr
              simp only [setPath, hf, hsp, Except.ok.injEq, Prod.mk.injEq] at hset
              obtain ⟨hst2, _⟩ := hset
              subst hst2
              by_cases hkk : k = k2
              · subst hkk
                simp only [leads, beq_self_eq_true, Bool.true_and] at hpq hqp
                simp only [getPath, rawChild, hf] at hget
                simp only [getPath, rawChild, fieldsFind_fieldsSet_self]
                exact ih child v c child2 c3 q2 sub hsp hpq hqp hget
              · simp only [getPath, rawChild,
                  fieldsFind_fieldsSet_ne fs k k2 child2 (fun h2 => hkk h2.symm)]
                simpa [getPath, rawChild] using hget
        | varr id es =>
          cases hidx : idx? k with
          | none => simp [setPath, hidx] at hset
          | some i =>
            cases hi : es[i]? with
            | none => simp [setPath, hidx, hi] at hset
            | some child =>
              cases hsp : setPath child (k1 :: r1) v c with
              | error e => simp [setPath, hidx, hi, hsp] at hset
              | ok pr =>
                obtain ⟨child2, c3⟩ := pr
                simp only [setPath, hidx, hi, hsp, Except.ok.injEq, Prod.mk.injEq] at hset
                obtain ⟨hst2, _⟩ := hset
                subst hst2
                by_cases hkk : k = k2
                · subst hkk
                  simp only [leads, beq_self_eq_true, Bool.true_and] at hpq hqp
                  simp only [getPath, rawChild, hidx, hi] at hget
                  have hlen : i < es.length := by
                    by_contra hge
                    rw [List.getElem?_eq_none (Nat.le_of_not_lt hge)] at hi
                    exact Option.noConfusion hi
                  simp only [getPath, rawChild, hidx, getElem?_set_same es i child2 hlen]
                  exact ih child v c child2 c3 q2 sub hsp hpq hqp hget
                · cases hidx2 : idx? k2 with
                  | none => simp [getPath, rawChild, hidx2] at hget
                  | some j =>
                    simp only [getPath, rawChild, hidx2] at hget ⊢
                    cases hj : es[j]? with
                    | none => rw [hj] at hget; simp at hget
                    | some child3 =>
                      rw [hj] at hget
                      have hij : i ≠ j :=
                        idx?_inj k k2 i j hidx hidx2 (fun h2 => hkk h2)
                      rw [show (es.set i child2)[j]? = some child3 by
                        rw [List.getElem?_set_ne hij]; exact hj]
                      exact hget
        | vnull => simp [setPath] at hset
        | vundefined => simp [setPath] at hset
        | vint n => simp [setPath] at hset
        | vstr s2 => simp [setPath] at hset
        | vbool b => simp [setPath] at hset

/-- Disjoint-subtree preservation lifted over a whole list of pending
writes. -/
theorem getPath_produceNewState_disjoint (pavs : List (Path × Val)) :
    ∀ (st : Val) (c : Nat) (st2 : Val) (c2 : Nat) (q : Path) (sub : Val),
      produceNewState st pavs c = .ok (st2, c2) →
      (∀ e ∈ pavs, leads e.1 q = false ∧ leads q e.1 = false) →
      getPath st q = some sub → getPath st2 q = some sub := by
  induction pavs with
  | nil =>
    intro st c st2 c2 q sub h _ hget
    simp only [produceNewState, Except.ok.injEq, Prod.mk.injEq] at h
    exact h.1 ▸ hget
  | cons e rest ih =>
    intro st c st2 c2 q sub h hd hget
    obtain ⟨p, v⟩ := e
    cases hsp : setPath st p v c with
    | error er => simp [produceNewState, hsp] at h
    | ok pr =>
      obtain ⟨st3, c3⟩ := pr
      simp only [produceNewState, hsp] at h
      have h1 := hd (p, v) (List.mem_cons_self _ _)
      exact ih st3 c3 st2 c2 q sub h (fun e2 he2 => hd e2 (List.mem_cons_of_mem _ he2))
        (getPath_setPath_disjoint p st v c st3 c3 q sub hsp h1.1 h1.2 hget)

/-- `produceNewState` over a concatenation is sequential composition. -/
theorem produceNewState_append (l1 l2 : List (Path × Val)) :
    ∀ (st : Val) (c : Nat),
      produceNewState st (l1 ++ l2) c =
        match produceNewState st l1 c with
        | .error e => .error e
        | .ok (st2, c2) => produceNewState st2 l2 c2 := by
  induction l1 with
  | nil => intro st c; simp [produceNewState]
  | cons e rest ih =>
    intro st c
    obtain ⟨p, v⟩ := e
    cases hsp : setPath st p v c with
    | error er => simp [produceNewState, hsp]
    | ok pr =>
      obtain ⟨st2, c2⟩ := pr
      simp only [List.cons_append, produceNewState, hsp]
      exact ih st2 c2

/-- A write or array-mutation never touches the underlying snapshot. -/
theorem scheduleUpdate_state (s : HookState) (p : Path) (v : Val) :
    (scheduleUpdate s p v).state = s.state := by
  unfold scheduleUpdate
  by_cases h : hasSymbol p <;> simp [h]

theorem applyStep_state (s : HookState) (st : Step) : (applyStep s st).state = s.state := by
  cases st with
  | sread q => rfl
  | swrite q w => exact scheduleUpdate_state s q w
  | sarr q o =>
    simp only [applyStep]
    cases hro : runArrayOp s q o with
    | none => rfl
    | some pr =>
      obtain ⟨s2, ret⟩ := pr
      show s2.state = s.state
      unfold runArrayOp at hro
      cases hv : readView s q with
      | varr tg a =>
        rw [hv] at hro
        simp only [Option.some.injEq, Prod.mk.injEq] at hro
        rw [← hro.1]
        exact scheduleUpdate_state s q _
      | vnull => rw [hv] at hro; simp at hro
      | vundefined => rw [hv] at hro; simp at hro
      | vint n => rw [hv] at hro; simp at hro
      | vstr s3 => rw [hv] at hro; simp at hro
      | vbool b => rw [hv] at hro; simp at hro
      | vobj tg fs => rw [hv] at hro; simp at hro

/-- Read-your-writes core: after `scheduleUpdate s p v` with non-nullish
`v`, reading `p` through the view yields `v` (the final `get` trap hits
the fresh buffer entry and short-circuits). -/
theorem readView_writeView_self (s : HookState) (p : Path) (v : Val)
    (hp : p ≠ []) (hv : isNullish v = false) :
    readView (writeView s p v) p = v :=
  readViewAux_of_cached (scheduleUpdate s p v) v hv p [] (scheduleUpdate s p v).state hp
    (getCachedValue_scheduleUpdate_self s p v)

/-- The wrapper closure and the native operation agree whenever every
argument native `splice` consumes is explicitly supplied. -/
theorem wrapperRun_eq_nativeRun (a : List Val) (o : ArrOp) (ho : opExplicit o = true) :
    wrapperRun a o = nativeRun a o := by
  cases o with
  | push items => simp [wrapperRun, nativeRun]
  | pop => rfl
  | shift => rfl
  | unshift items => simp [wrapperRun, nativeRun]
  | splice start dc items =>
    cases dc with
    | none => simp [opExplicit] at ho
    | some d => rfl
  | sortBy le => rfl
  | reverse => rfl

/-! ## Concrete hook instances used as test inputs -/

/-- A hook instance wrapping `{a: 1}` with an empty buffer. -/
def exSimple : HookState :=
  { state := .vobj 1 [(Key.str "a", Val.vint 1)],
    tempValuesWithStringPath := [], tempValuesWithSymbolPath := [], isDirty := false }

/-- A hook instance wrapping `{arr: [1, 2, 3]}` with an empty buffer. -/
def exArr : HookState :=
  { state := .vobj 1 [(Key.str "arr", Val.varr 2 [Val.vint 1, Val.vint 2, Val.vint 3])],
    tempValuesWithStringPath := [], tempValuesWithSymbolPath := [], isDirty := false }

/-- Array-length observer separating concrete values. -/
def elemsLen : Val → Nat
  | .varr _ es => es.length
  | _ => 0

/-! ## Claims -/

/-- **C1** (counterexample): read-your-writes fails for nullish values.
On `{a: 1}`, writing `null` at path `["a"]` through the view and reading
`["a"]` back does not return `null` — the `??` in the `get` trap skips the
buffered `null` and falls through to the underlying `1`. -/
theorem c1_counterexample :
    readView (writeView exSimple [Key.str "a"] Val.vnull) [Key.str "a"] ≠ Val.vnull := by
  intro h
  exact absurd (congrArg isNullish h) (by decide)

/-- **C1** (amended): for every hook state, nonempty view-traversable path
`p` and every non-nullish value `v`, writing `v` at `p` through the
intercepted view and then reading `p` back (before any commit) returns
`v`; for nullish `v` the read falls back to the underlying snapshot. -/
theorem c1_read_your_writes (s : HookState) (p : Path) (v : Val)
    (hp : p ≠ []) (_ht : viewTraversable s p = true) (hv : isNullish v = false) :
    readView (writeView s p v) p = v :=
  readView_writeView_self s p v hp hv

/-- **C1** witness: the amended theorem at `{a: 1}`, path `["a"]`,
value `7`. -/
theorem c1_witness :
    readView (writeView exSimple [Key.str "a"] (Val.vint 7)) [Key.str "a"] = Val.vint 7 :=
  c1_read_your_writes exSimple [Key.str "a"] (Val.vint 7) (by decide) (by decide) (by decide)

/-- **C2** (counterexample): the array-op claim fails for `splice` called
without an explicit `deleteCount`.  On the wrapped `[1,2,3]`, the wrapper
forwards the missing argument as `undefined` to the inner native `splice`,
which coerces it to `0` and removes nothing (returning `[]`), whereas the
native call `[1,2,3].splice(1)` removes through the end and returns
`[2,3]`. -/
theorem c2_counterexample :
    (match runArrayOp exArr [Key.str "arr"] (.splice 1 none []) with
     | some (_, ret) => ret
     | none => Val.vnull) ≠
      (nativeRun [Val.vint 1, Val.vint 2, Val.vint 3] (.splice 1 none [])).2 := by
  intro h
  exact absurd (congrArg elemsLen h) (by decide)

/-- **C2** (amended): for every wrapped array, each recognized mutating
operation that supplies every argument the native operation consumes
(`push`, `pop`, `shift`, `unshift`, `splice` with an explicit
`deleteCount`, `sort`, `reverse`) buffers exactly one whole-array
replacement write at the array's own path, computes its effect from the
array resolved through the write buffer, returns the value the native
operation would return, and a subsequent read of the path shows the
updated array. -/
theorem c2_array_ops (s : HookState) (p : Path) (tg : Nat) (a : List Val) (o : ArrOp)
    (hp : p ≠ []) (ha : readView s p = .varr tg a) (ho : opExplicit o = true) :
    runArrayOp s p o =
      some (writeView s p (.varr 0 (nativeRun a o).1), (nativeRun a o).2) ∧
    readView (writeView s p (.varr 0 (nativeRun a o).1)) p = .varr 0 (nativeRun a o).1 := by
  constructor
  · unfold runArrayOp
    rw [ha]
    show some (scheduleUpdate s p (Val.varr 0 (wrapperRun a o).1), (wrapperRun a o).2) = _
    rw [wrapperRun_eq_nativeRun a o ho]
    rfl
  · exact readView_writeView_self s p (.varr 0 (nativeRun a o).1) hp rfl

/-- **C2** witness: on the wrapped `[1,2,3]`, `push(4)` buffers one
whole-array write, returns the new length `4`, and a subsequent read shows
`[1,2,3,4]`. -/
theorem c2_witness :
    runArrayOp exArr [Key.str "arr"] (.push [Val.vint 4]) =
      some (writeView exArr [Key.str "arr"]
          (.varr 0 (nativeRun [Val.vint 1, Val.vint 2, Val.vint 3] (.push [Val.vint 4])).1),
        (nativeRun [Val.vint 1, Val.vint 2, Val.vint 3] (.push [Val.vint 4])).2) ∧
    readView (writeView exArr [Key.str "arr"]
        (.varr 0 (nativeRun [Val.vint 1, Val.vint 2, Val.vint 3] (.push [Val.vint 4])).1))
      [Key.str "arr"] =
      .varr 0 (nativeRun [Val.vint 1, Val.vint 2, Val.vint 3] (.push [Val.vint 4])).1 :=
  c2_array_ops exArr [Key.str "arr"] 2 [Val.vint 1, Val.vint 2, Val.vint 3]
    (.push [Val.vint 4]) (by decide) rfl rfl

/-- A hook instance wrapping `{a: {b: 1}, c: {d: 2}}` with one pending
string-path write `a.b ↦ 9`. -/
def exShare : HookState :=
  { state := .vobj 1 [(Key.str "a", Val.vobj 2 [(Key.str "b", Val.vint 1)]),
                      (Key.str "c", Val.vobj 3 [(Key.str "d", Val.vint 2)])],
    tempValuesWithStringPath := [("a.b", Val.vint 9)],
    tempValuesWithSymbolPath := [], isDirty := true }

/-- The snapshot `batchUpdate` produces from `exShare` (root and the `a`
node copied with fresh tags `101`/`100`; the untouched `c` subtree keeps
tag `3`). -/
def exShareNew : Val :=
  Val.vobj 101 [(Key.str "a", Val.vobj 100 [(Key.str "b", Val.vint 9)]),
                (Key.str "c", Val.vobj 3 [(Key.str "d", Val.vint 2)])]

/-- The hook state `batchUpdate` leaves behind for `exShare`. -/
def exShareNs : HookState :=
  { state := exShareNew, tempValuesWithStringPath := [],
    tempValuesWithSymbolPath := [], isDirty := false }

/-- The single callback invocation of the `exShare` commit. -/
def exShareCall : CallbackCall :=
  { oldState := exShare.state, newState := exShareNew,
    strBufAtCall := [], symBufAtCall := [], dirtyAtCall := false }

/-- **C3** (confirmed): structural sharing of commits — for every commit
that succeeds, every subtree of the base state whose path is disjoint from
all drained written paths (neither an ancestor nor a descendant of any of
them) appears in the produced state unchanged, identity tag included,
i.e. reference-identical. -/
theorem c3_structural_sharing (s : HookState) (c : Nat) (ns : HookState)
    (cc : List CallbackCall) (c2 : Nat) (q : Path) (sub : Val)
    (hok : batchUpdate s c = .ok (ns, cc, c2))
    (hd : ∀ e ∈ drainAll s, leads e.1 q = false ∧ leads q e.1 = false)
    (hsub : getPath s.state q = some sub) :
    getPath ns.state q = some sub := by
  cases hpr : produceNewState s.state (drainAll s) c with
  | error e => simp [batchUpdate, hpr] at hok
  | ok pr =>
    obtain ⟨nv, c3⟩ := pr
    simp only [batchUpdate, hpr, Except.ok.injEq, Prod.mk.injEq] at hok
    obtain ⟨hns, _⟩ := hok
    rw [← hns]
    exact getPath_produceNewState_disjoint (drainAll s) s.state c nv c3 q sub hpr hd hsub

/-- **C3** witness: committing `exShare` (single written path `["a","b"]`)
leaves the disjoint subtree at `["c"]` reference-identical: same identity
tag `3`, same contents. -/
theorem c3_witness :
    getPath exShareNs.state [Key.str "c"] =
      some (Val.vobj 3 [(Key.str "d", Val.vint 2)]) :=
  c3_structural_sharing exShare 100 exShareNs [exShareCall] 102 [Key.str "c"]
    (Val.vobj 3 [(Key.str "d", Val.vint 2)]) rfl (by decide) rfl

/-- A hook instance whose single buffered path `a.b` runs through the
scalar `a: 5` and therefore cannot be committed. -/
def exBadPath : HookState :=
  { state := .vobj 1 [(Key.str "a", Val.vint 5)],
    tempValuesWithStringPath := [("a.b", Val.vint 1)],
    tempValuesWithSymbolPath := [], isDirty := true }

/-- **C4** (counterexample): on `exBadPath` the commit does fail, but the
Write Buffer is *not* left intact — `batchUpdate` clears both maps before
calling `produceNewState`, so the buffered write is lost when the error
propagates. -/
theorem c4_counterexample :
    (match batchUpdate exBadPath 100 with
     | .error (se, _) => se.tempValuesWithStringPath
     | .ok (ns, _, _) => ns.tempValuesWithStringPath) ≠
      exBadPath.tempValuesWithStringPath := by
  intro h
  exact absurd (congrArg List.length h) (by decide)

/-- **C4** (amended): if a buffered path has a scalar intermediate node,
the commit fails with a path-traversal error and no pending write is
applied — the snapshot and the dirty flag are left untouched — but the
Write Buffer has already been drained and cleared, so the buffered writes
are lost (and no change callback fires, as no `ok` branch is taken). -/
theorem c4_commit_atomicity (s : HookState) (c : Nat) (e : CommitError)
    (herr : produceNewState s.state (drainAll s) c = .error e) :
    batchUpdate s c =
      .error ({ s with
          tempValuesWithStringPath := []
          tempValuesWithSymbolPath := [] }, c) := by
  simp only [batchUpdate, herr]

/-- **C4** witness: the amended theorem at `exBadPath`. -/
theorem c4_witness :
    batchUpdate exBadPath 100 =
      .error ({ exBadPath with
          tempValuesWithStringPath := []
          tempValuesWithSymbolPath := [] }, 100) :=
  c4_commit_atomicity exBadPath 100 .pathTraversal rfl

/-- The hook state after writing `2` at `["a"]` on `exSimple` (dirty,
one pending string-path write). -/
def exDirty : HookState := writeView exSimple [Key.str "a"] (Val.vint 2)

/-- The snapshot the `exDirty` checkpoint produces. -/
def exDirtyNew : Val := Val.vobj 50 [(Key.str "a", Val.vint 2)]

/-- The hook state the `exDirty` checkpoint leaves behind. -/
def exDirtyNs : HookState :=
  { state := exDirtyNew, tempValuesWithStringPath := [],
    tempValuesWithSymbolPath := [], isDirty := false }

/-- The single callback invocation of the `exDirty` checkpoint. -/
def exDirtyCall : CallbackCall :=
  { oldState := exSimple.state, newState := exDirtyNew,
    strBufAtCall := [], symBufAtCall := [], dirtyAtCall := false }

/-- The callback invocations observable at a checkpoint: the list the
`ok` branch delivers.  When the commit throws, `options.onStateChange`
(useReactive.ts line 159) is never reached — line 153 throws first — so an
erroring checkpoint delivers none. -/
def checkpointCalls :
    Except (HookState × Nat) (HookState × List CallbackCall × Nat) → List CallbackCall
  | .ok (_, cc, _) => cc
  | .error _ => []

/-- **C5** (counterexample): the callback is *not* invoked at every
checkpoint with the DirtyFlag set.  `exBadPath` is dirty with a non-empty
buffer, but its commit throws inside `produceNewState` (scalar
intermediate on the buffered path `a.b`) before `onStateChange` is
reached, so the callback is invoked zero times, not exactly once. -/
theorem c5_counterexample :
    exBadPath.isDirty = true ∧
    (checkpointCalls (renderCheckpoint exBadPath 100)).length ≠ 1 :=
  ⟨rfl, by decide⟩

/-- **C5** (amended): at every checkpoint with the dirty flag set whose
commit succeeds (`produceNewState` does not throw), the registered change
callback is invoked exactly once, with the pre-commit snapshot as first
argument and the freshly produced snapshot as second, and at the moment of
the call both write-buffer maps and the dirty flag are already cleared. -/
theorem c5_commit_callback (s : HookState) (c : Nat) (ns : HookState)
    (cc : List CallbackCall) (c2 : Nat)
    (hdirty : s.isDirty = true)
    (hok : renderCheckpoint s c = .ok (ns, cc, c2)) :
    cc = [{ oldState := s.state, newState := ns.state,
            strBufAtCall := [], symBufAtCall := [], dirtyAtCall := false }] := by
  unfold renderCheckpoint at hok
  rw [hdirty] at hok
  simp only [if_true] at hok
  cases hpr : produceNewState s.state (drainAll s) c with
  | error e => simp [batchUpdate, hpr] at hok
  | ok pr =>
    obtain ⟨nv, c3⟩ := pr
    simp only [batchUpdate, hpr, Except.ok.injEq, Prod.mk.injEq] at hok
    obtain ⟨hns, hcc, _⟩ := hok
    rw [← hns, ← hcc]

/-- **C5** witness: the `exDirty` checkpoint invokes the callback exactly
once with `(pre-commit snapshot, fresh snapshot)` after the clears. -/
theorem c5_witness :
    ([exDirtyCall] : List CallbackCall) =
      [{ oldState := exDirty.state, newState := exDirtyNs.state,
         strBufAtCall := [], symBufAtCall := [], dirtyAtCall := false }] :=
  c5_commit_callback exDirty 50 exDirtyNs [exDirtyCall] 51 rfl rfl

/-- A hook instance with one pending write in each index, at overlapping
paths: string-keyed `a ↦ {x: 1}` and opaque-keyed `[a, sym0] ↦ 2`. -/
def exOverlap : HookState :=
  { state := .vobj 1 [(Key.str "a", Val.vobj 2 [])],
    tempValuesWithStringPath := [("a", Val.vobj 0 [(Key.str "x", Val.vint 1)])],
    tempValuesWithSymbolPath := [([Key.str "a", Key.sym 0], Val.vint 2)],
    isDirty := true }

/-- The `exOverlap` commit as the code performs it. -/
def exOverlapCode : Option Val :=
  match batchUpdate exOverlap 100 with
  | .ok (ns, _, _) => some ns.state
  | .error _ => none

/-- The `exOverlap` commit with the drain order the claim states
(string-keyed fast index first, then opaque-keyed scan index). -/
def exOverlapClaim : Option Val :=
  match produceNewState exOverlap.state
      ((exOverlap.tempValuesWithStringPath.map fun e => ((splitPath e.1).map Key.str, e.2)) ++
        exOverlap.tempValuesWithSymbolPath) 100 with
  | .ok (st, _) => some st
  | .error _ => none

/-- Whether the committed state still holds the opaque-keyed write at
`[a, sym0]` (observer separating the two drain orders). -/
def exOverlapObs : Option Val → Bool
  | some v => (getPath v [Key.str "a", Key.sym 0]).isSome
  | none => false

/-- **C6** (counterexample): with both indices non-empty, draining the
string-keyed writes first (as the claim states) is observably different
from what the code does.  On `exOverlap` the code's commit loses the
opaque-keyed write `[a, sym0] ↦ 2` (the later string write `a ↦ {x: 1}`
replaces the whole `a` subtree), while the claim's order would keep it. -/
theorem c6_counterexample : exOverlapCode ≠ exOverlapClaim := by
  intro h
  exact absurd (congrArg exOverlapObs h) (by decide)

/-- **C6** (amended): the commit drains the opaque-keyed writes from the
scan index *first* and the string-keyed writes from the fast index *after*
them: producing the new state over the full drained list equals producing
over the symbol-path entries and then over the split string-path
entries. -/
theorem c6_drain_order (s : HookState) (st : Val) (c : Nat) :
    produceNewState st (drainAll s) c =
      match produceNewState st s.tempValuesWithSymbolPath c with
      | .error e => .error e
      | .ok (st2, c2) =>
          produceNewState st2
            (s.tempValuesWithStringPath.map fun e => ((splitPath e.1).map Key.str, e.2)) c2 := by
  unfold drainAll
  exact produceNewState_append _ _ st c

/-- A hook instance with one buffered opaque-keyed path `[sym0] ↦ 1`. -/
def exSymBuf : HookState :=
  { exSimple with tempValuesWithSymbolPath := [([Key.sym 0], Val.vint 1)] }

/-- **C7** (counterexample): a new opaque-keyed write whose path
`[sym0, "b"]` strictly extends the buffered path `[sym0]` does *not*
overwrite the existing entry in place — the scan skips entries shorter
than the new path, so a second entry is appended. -/
theorem c7_counterexample :
    ((scheduleUpdate exSymBuf [Key.sym 0, Key.str "b"]
        (Val.vint 2)).tempValuesWithSymbolPath).length ≠
      exSymBuf.tempValuesWithSymbolPath.length := by decide

/-- **C7** (amended): an opaque-keyed write overwrites an existing
buffered entry in place exactly when its path *equals* that entry's path;
any other opaque-keyed write — to an extension, an ancestor, or an
unrelated path — appends a fresh entry at the end and leaves every
existing entry untouched. -/
theorem c7_opaque_coalescing (s : HookState) (p : Path) (v : Val)
    (hs : hasSymbol p = true) :
    ((∀ e ∈ s.tempValuesWithSymbolPath, e.1 ≠ p) →
      (scheduleUpdate s p v).tempValuesWithSymbolPath =
        s.tempValuesWithSymbolPath ++ [(p, v)]) ∧
    (∀ l1 w l2, s.tempValuesWithSymbolPath = l1 ++ (p, w) :: l2 →
      (∀ e ∈ l1, e.1 ≠ p) →
      (scheduleUpdate s p v).tempValuesWithSymbolPath = l1 ++ (p, v) :: l2) := by
  constructor
  · intro h
    simp [scheduleUpdate, hs, symSet_of_ne _ _ _ h]
  · intro l1 w l2 hbuf h
    simp [scheduleUpdate, hs, hbuf, symSet_replace l1 l2 p w v h]

/-- **C7** witness: the amended theorem on `exSymBuf` — the extension
write `[sym0, "b"] ↦ 2` appends a second entry after the untouched
`[sym0] ↦ 1`. -/
theorem c7_witness :
    (scheduleUpdate exSymBuf [Key.sym 0, Key.str "b"]
        (Val.vint 2)).tempValuesWithSymbolPath =
      exSymBuf.tempValuesWithSymbolPath ++ [([Key.sym 0, Key.str "b"], Val.vint 2)] :=
  (c7_opaque_coalescing exSymBuf [Key.sym 0, Key.str "b"] (Val.vint 2) (by decide)).1
    (by decide)

/-- **C8** (confirmed): no synchronous mutation — any sequence of reads,
writes and array mutations through the intercepted view leaves the
underlying snapshot unchanged; a single write only records into the Write
Buffer via `scheduleUpdate` and never touches `state`. -/
theorem c8_no_sync_mutation (s : HookState) (p : Path) (v : Val) (steps : List Step) :
    (writeView s p v).state = s.state ∧
    (List.foldl applyStep s steps).state = s.state := by
  refine ⟨scheduleUpdate_state s p v, ?_⟩
  induction steps generalizing s with
  | nil => rfl
  | cons st rest ih =>
    rw [List.foldl_cons, ih (applyStep s st), applyStep_state s st]

/-- **C9** (code bug): the zero-argument initializer is invoked on *every*
render, not exactly once — `useRef(typeof initialState === 'function' ?
initialState() : initialState)` evaluates its argument each render and
discards the result after the first.  After `n + 1` renders the thunk has
been called `n + 1` times, while the ref still holds the first result. -/
theorem c9_initializer_calls (v : Val) (n : Nat) :
    initAfterRenders (.thunk v) (n + 1) = (some v, n + 1) := by
  induction n with
  | zero => rfl
  | succ m ih =>
    show renderInit (initAfterRenders (.thunk v) (m + 1)) (.thunk v) = _
    rw [ih]
    rfl

/-- A hook instance wrapping `{a: {b: 0}, "a.b": 5}`: an object that has
both a nested path `a.b` and a single property literally named `"a.b"`. -/
def exDotted : HookState :=
  { state := .vobj 1 [(Key.str "a", Val.vobj 2 [(Key.str "b", Val.vint 0)]),
                      (Key.str "a.b", Val.vint 5)],
    tempValuesWithStringPath := [], tempValuesWithSymbolPath := [], isDirty := false }

/-- **C10** (confirmed): implicit separator rerouting.  (i) Any two
all-string paths with the same `'.'`-joined form share one buffered
entry: writing through the first and then the second leaves exactly the
buffer a single write through the second would leave.  (ii) A write to the
single property `"a.b"` (a name containing a `'.'`) is committed at the
nested path `["a", "b"]` — the nested `b` becomes `7` — while the original
property `"a.b"` keeps its old value `5`. -/
theorem c10_separator_rerouting (s : HookState) (p q : Path) (v w : Val)
    (hp : hasSymbol p = false) (hq : hasSymbol q = false)
    (hj : joinPath (strKeys p) = joinPath (strKeys q)) :
    (writeView (writeView s p v) q w).tempValuesWithStringPath =
      (writeView s q w).tempValuesWithStringPath ∧
    (match batchUpdate (writeView exDotted [Key.str "a.b"] (Val.vint 7)) 100 with
     | .ok (ns, _, _) => getPath ns.state [Key.str "a", Key.str "b"]
     | .error _ => none) = some (Val.vint 7) ∧
    (match batchUpdate (writeView exDotted [Key.str "a.b"] (Val.vint 7)) 100 with
     | .ok (ns, _, _) => getPath ns.state [Key.str "a.b"]
     | .error _ => none) = some (Val.vint 5) := by
  refine ⟨?_, rfl, rfl⟩
  unfold writeView scheduleUpdate
  simp only [hp, hq, Bool.false_eq_true, if_false]
  rw [hj, mapSet_mapSet_self]

/-- **C10** witness: the distinct paths `["a.b"]` and `["a", "b"]` both
join to `"a.b"` and collapse to one buffered entry on `exDotted`. -/
theorem c10_witness :
    (writeView (writeView exDotted [Key.str "a.b"] (Val.vint 3))
        [Key.str "a", Key.str "b"] (Val.vint 9)).tempValuesWithStringPath =
      (writeView exDotted [Key.str "a", Key.str "b"]
        (Val.vint 9)).tempValuesWithStringPath ∧
    (match batchUpdate (writeView exDotted [Key.str "a.b"] (Val.vint 7)) 100 with
     | .ok (ns, _, _) => getPath ns.state [Key.str "a", Key.str "b"]
     | .error _ => none) = some (Val.vint 7) ∧
    (match batchUpdate (writeView exDotted [Key.str "a.b"] (Val.vint 7)) 100 with
     | .ok (ns, _, _) => getPath ns.state [Key.str "a.b"]
     | .error _ => none) = some (Val.vint 5) :=
  c10_separator_rerouting exDotted [Key.str "a.b"] [Key.str "a", Key.str "b"]
    (Val.vint 3) (Val.vint 9) rfl rfl (by decide)

end ReactiveHooks
